import Mathlib

/-
  Verification of the Planet repository's A* path-finding core.

  The embedding follows the source:
  - `Geometry::Vector2<float>` is modelled as a pair of rationals (`Vec2`);
    float arithmetic is modelled as exact rational arithmetic.
  - `Magnitude` (sqrtf) is modelled as `Real.sqrt` over the rationals cast to ℝ.
  - The geometric predicates from Shapes.cpp (`Intersect(Polygon, Line)`,
    `Intersect(world, Line)`, `InPolygon`, `GetAnglularExtrema`) are translated
    with their exact branch structure, including the `EPSILON` terms and the
    `< 3 vertices` guards (release semantics: the debug throw is a no-op).
  - The solver (AStar.h / the AStar translation unit) is modelled as the
    single-threaded execution of one query (worker-pool size 0: only the
    calling thread runs `Solver::Run`).  The fringe is a list popped at a
    node minimising the A* evaluation `f`; the discovered set is a list
    keyed by position.  The loop is run on explicit fuel.
-/

namespace Planet

/-- 2-D vector with exact rational components, modelling Geometry::Vector2<float>. -/
structure Vec2 where
  x : ℚ
  y : ℚ
deriving DecidableEq, Repr

namespace Vec2

def sub (a b : Vec2) : Vec2 := ⟨a.x - b.x, a.y - b.y⟩

instance : Sub Vec2 := ⟨sub⟩

/-- The counterclockwise normal, Vector2::Normal(). -/
def normal (v : Vec2) : Vec2 := ⟨-v.y, v.x⟩

/-- Dot product, Geometry::Dot. -/
def dot (a b : Vec2) : ℚ := a.x * b.x + a.y * b.y

/-- Z component of the cross product, Geometry::CrossZ. -/
def crossZ (a b : Vec2) : ℚ := a.x * b.y - a.y * b.x

/-- Vector2::Magnitude() = sqrtf(x*x + y*y), modelled over ℝ. -/
noncomputable def magnitude (v : Vec2) : ℝ := Real.sqrt ((v.x : ℝ) * v.x + (v.y : ℝ) * v.y)

theorem magnitude_nonneg (v : Vec2) : 0 ≤ v.magnitude := Real.sqrt_nonneg _

theorem magnitude_zero : magnitude ⟨0, 0⟩ = 0 := by
  simp [magnitude]

end Vec2

/-- Geometry::Line. -/
structure Line where
  a : Vec2
  b : Vec2
deriving DecidableEq, Repr

/-- Geometry::Polygon. -/
structure Polygon where
  vertices : List Vec2
deriving DecidableEq, Repr

/-- Constants::EPSILON = 0.001f. -/
def EPSILON : ℚ := 1 / 1000

/-- Minimum of two rationals, written with an explicit comparison so that
concrete instances reduce inside the kernel. -/
def qmin (a b : ℚ) : ℚ := if a ≤ b then a else b

/-- Maximum of two rationals. -/
def qmax (a b : ℚ) : ℚ := if a ≤ b then b else a

theorem qmin_eq_min (a b : ℚ) : qmin a b = min a b := by
  unfold qmin
  split
  · exact (min_eq_left (by assumption)).symm
  · exact (min_eq_right (le_of_not_le (by assumption))).symm

theorem qmax_eq_max (a b : ℚ) : qmax a b = max a b := by
  unfold qmax
  split
  · exact (max_eq_right (by assumption)).symm
  · exact (max_eq_left (le_of_not_le (by assumption))).symm

/-- Minimum of a list of rationals with a default for the empty list
(models std::ranges::minmax over the projected vertices). -/
def listMin (l : List ℚ) : ℚ :=
  match l with
  | [] => 0
  | h :: t => t.foldl qmin h

/-- Maximum of a list of rationals with a default for the empty list. -/
def listMax (l : List ℚ) : ℚ :=
  match l with
  | [] => 0
  | h :: t => t.foldl qmax h

/-- The edge normals of a polygon: for each vertex, the normal of the edge to
the next vertex (wrapping from the last vertex to the first), exactly as the
iteration in Geometry::Intersect / Geometry::InPolygon computes them. -/
def edgeNormals (vs : List Vec2) : List Vec2 :=
  List.zipWith (fun v w => Vec2.normal (w - v)) vs (vs.drop 1 ++ vs.take 1)

/-- Geometry::Intersect(const Polygon&, const Line&) from Shapes.cpp:
separating-axis test with the EPSILON slack, returning false (no
intersection) as soon as one axis separates.  A polygon with fewer than 3
vertices returns false (release semantics of THROW_IF_DEBUG). -/
def intersectPL (p : Polygon) (l : Line) : Bool :=
  if p.vertices.length < 3 then false
  else
    let n0 := Vec2.normal (l.a - l.b)
    let projs := p.vertices.map (fun v => Vec2.dot v n0)
    let mn := listMin projs
    let mx := listMax projs
    let lineMapping := Vec2.dot l.b n0
    if mn > lineMapping - EPSILON ∨ lineMapping + EPSILON > mx then false
    else
      (edgeNormals p.vertices).all (fun n =>
        let pprojs := p.vertices.map (fun v => Vec2.dot v n)
        let pmn := listMin pprojs
        let pmx := listMax pprojs
        let la := Vec2.dot l.a n
        let lb := Vec2.dot l.b n
        let lmn := qmin la lb
        let lmx := qmax la lb
        ¬(pmn > lmx - EPSILON ∨ lmn + EPSILON > pmx))

/-- Geometry::Intersect(const std::vector<Polygon>&, const Line&):
whether the line intersects any polygon of the world. -/
def intersectWorld (w : List Polygon) (l : Line) : Bool :=
  w.any (fun p => intersectPL p l)

/-- Geometry::InPolygon(const Polygon&, const Vector2<float>&) from Shapes.cpp:
containment by projection onto every edge normal; no epsilon.  Fewer than 3
vertices returns false. -/
def inPolygon (p : Polygon) (v : Vec2) : Bool :=
  if p.vertices.length < 3 then false
  else
    (edgeNormals p.vertices).all (fun n =>
      let pprojs := p.vertices.map (fun u => Vec2.dot u n)
      let mn := listMin pprojs
      let mx := listMax pprojs
      ¬(mn > Vec2.dot v n ∨ Vec2.dot v n > mx))

/-- The comparator used by GetAnglularExtrema:
DirectionOfAngle(a, viewPoint, b) == COUNTERCLOCKWISE, i.e.
CrossZ(viewPoint - a, b - viewPoint) < 0. -/
def angleLt (vp a b : Vec2) : Bool :=
  Vec2.crossZ (vp - a) (b - vp) < 0

/-- std::ranges::minmax over a nonempty list with a strict comparator:
the pair (first minimal element, last maximal element).  On the empty list it
returns the given default pair. -/
def minmaxWith (lt : Vec2 → Vec2 → Bool) (l : List Vec2) : Vec2 × Vec2 :=
  match l with
  | [] => (⟨0, 0⟩, ⟨0, 0⟩)
  | h :: t => t.foldl (fun mm v =>
      (if lt v mm.1 then v else mm.1, if lt v mm.2 then mm.2 else v)) (h, h)

/-- Geometry::GetAnglularExtrema(polygon, viewPoint) from Shapes.cpp:
minmax of the vertices under the DirectionOfAngle comparator.  The debug
viewpoint-inside-polygon check only throws in debug builds, so it does not
affect the returned value. -/
def angularExtrema (p : Polygon) (vp : Vec2) : Vec2 × Vec2 :=
  minmaxWith (angleLt vp) p.vertices

/-- A search node, AStar::Solver::Node: the full path of the candidate,
built by appending the node's position to the parent path. -/
structure Node where
  path : List Vec2
deriving DecidableEq, Repr

namespace Node

/-- Node::position(): the last point of the path. -/
def position (n : Node) : Vec2 := n.path.getLastD ⟨0, 0⟩

/-- std::adjacent_difference: the first output element is the first input
element unchanged, then successive differences. -/
def adjDiff (l : List Vec2) : List Vec2 :=
  match l with
  | [] => []
  | v :: vs => v :: List.zipWith (fun a b => a - b) vs (v :: vs)

/-- Node::pathLength(): the sum of the magnitudes of the adjacent-difference
sequence of the path.  Note that std::adjacent_difference copies the first
vertex unchanged into the output, so the magnitude of the first vertex itself
is part of the sum. -/
noncomputable def pathLength (n : Node) : ℝ :=
  ((adjDiff n.path).map Vec2.magnitude).sum

end Node

/-- The A* evaluation function used by the fringe comparator in Solver::Solve:
f(n) = pathLength(n) + distance from n's position to the goal. -/
noncomputable def fval (g : Vec2) (n : Node) : ℝ :=
  n.pathLength + Vec2.magnitude (g - n.position)

/-- The first node of `h :: t` minimising the A* evaluation function
(the element at the top of the priority queue; ties broken towards the
earlier element, which is one of the arbitrary tie orders the heap allows). -/
noncomputable def selectMin (g : Vec2) (h : Node) (t : List Node) : Node :=
  t.foldl (fun best m => if fval g m < fval g best then m else best) h

/-- Solver::AqcuireNextNodeInFringe: pop a node minimising f from the fringe,
or none if the fringe is empty. -/
noncomputable def popMinF (g : Vec2) (l : List Node) : Option (Node × List Node) :=
  match l with
  | [] => none
  | h :: t => some (selectMin g h t, (h :: t).erase (selectMin g h t))

/-- The solver's shared state for one query: the fringe (priority queue),
the discovered set (keyed by position), and the best completed path. -/
structure SState where
  fringe : List Node
  discovered : List Node
  complete : Option Node
deriving Repr

/-- Solver::Discover: if an entry with the candidate's position exists and is
strictly shorter, drop the candidate; otherwise erase any entry at that
position, insert the candidate into the discovered set, and push it onto the
fringe. -/
noncomputable def discover (s : SState) (n : Node) : SState :=
  match s.discovered.find? (fun m => m.position == n.position) with
  | some m =>
    if m.pathLength < n.pathLength then s
    else { s with
           discovered := (s.discovered.eraseP (fun k => k.position == n.position)) ++ [n],
           fringe := s.fringe ++ [n] }
  | none => { s with discovered := s.discovered ++ [n], fringe := s.fringe ++ [n] }

/-- The body of the for_each over the world's polygons in Solver::Run: when
the popped node's position is a vertex of the polygon, discover its two ring
neighbours (wrapping at the ends); otherwise discover the polygon's two
angular extrema, each gated by the occlusion test against the whole world. -/
noncomputable def expandPolygon (w : List Polygon) (n : Node) (st : SState) (p : Polygon) :
    SState :=
  match p.vertices.findIdx? (fun v => n.position == v) with
  | some i =>
    let prev := if i = 0 then p.vertices.getLastD ⟨0, 0⟩ else p.vertices.getD (i - 1) ⟨0, 0⟩
    let st1 := discover st ⟨n.path ++ [prev]⟩
    let next := if i = p.vertices.length - 1 then p.vertices.headD ⟨0, 0⟩
                else p.vertices.getD (i + 1) ⟨0, 0⟩
    discover st1 ⟨n.path ++ [next]⟩
  | none =>
    let ex := angularExtrema p n.position
    let st1 := if ¬ intersectWorld w ⟨n.position, ex.1⟩ then discover st ⟨n.path ++ [ex.1]⟩ else st
    if ¬ intersectWorld w ⟨n.position, ex.2⟩ then discover st1 ⟨n.path ++ [ex.2]⟩ else st1

/-- The body of Solver::Run for one popped node (after the early-termination
check): conditionally record a completed path, discover the goal if visible,
then expand against every polygon of the world in order. -/
noncomputable def process (w : List Polygon) (g : Vec2) (n : Node) (s : SState) : SState :=
  let s1 := if n.position = g then { s with complete := some n } else s
  let s2 := if ¬ intersectWorld w ⟨n.position, g⟩ then discover s1 ⟨n.path ++ [g]⟩ else s1
  w.foldl (expandPolygon w n) s2

/-- Result of one iteration of the loop in Solver::Run: either the loop ends
(empty fringe, or the popped node cannot beat the completed path), or it
continues with the updated state. -/
inductive StepResult where
  | done (s : SState)
  | cont (s : SState)

/-- One iteration of the while loop in Solver::Run. -/
noncomputable def runStep (w : List Polygon) (g : Vec2) (s : SState) : StepResult :=
  match popMinF g s.fringe with
  | none => .done s
  | some (n, rest) =>
    match s.complete with
    | some c =>
      if n.pathLength ≥ c.pathLength then .done { s with fringe := rest }
      else .cont (process w g n { s with fringe := rest })
    | none => .cont (process w g n { s with fringe := rest })

/-- Solver::Run as a fuel-indexed loop.  The Boolean is true when the loop
reached its exit condition (rather than running out of fuel). -/
noncomputable def run (w : List Polygon) (g : Vec2) : ℕ → SState → SState × Bool
  | 0, s => (s, false)
  | fuel + 1, s =>
    match runStep w g s with
    | .done s1 => (s1, true)
    | .cont s1 => run w g fuel s1

/-- The state Solver::Solve starts the query with: the fringe seeded with the
single-point start node, empty discovered set, no completed path. -/
def initState (start : Vec2) : SState :=
  { fringe := [⟨[start]⟩], discovered := [], complete := none }

/-- AStar::FindPath run single-threaded with the given fuel: the path of the
best completed node, or the empty sequence. -/
noncomputable def findPath (w : List Polygon) (start g : Vec2) (fuel : ℕ) : List Vec2 :=
  match ((run w g fuel (initState start)).1).complete with
  | some c => c.path
  | none => []

/-- The worker pool, AStar::Solver::threadPool; the workers themselves carry
no state relevant to the pool-size claims. -/
abbrev ThreadPool : Type := List Unit

/-- AStar::AddThread: push_back a new worker. -/
def addThread (pool : ThreadPool) : ThreadPool := pool ++ [()]

/-- AStar::RemoveThread: pop_back the most recent worker if any. -/
def removeThread (pool : ThreadPool) : ThreadPool :=
  if List.isEmpty pool then pool else pool.dropLast

/-- AStar::ThreadCount: pool size plus one (the calling thread). -/
def threadCount (pool : ThreadPool) : ℕ := List.length pool + 1

/-- Helper: √25 = 5 over ℝ. -/
theorem sqrt_twentyfive : Real.sqrt 25 = 5 := by
  rw [show (25 : ℝ) = 5 ^ 2 by norm_num]
  exact Real.sqrt_sq (by norm_num)

/-- C10: AddThread followed by RemoveThread restores ThreadCount, and
ThreadCount is the pool size plus one, hence always at least 1. -/
theorem addThread_removeThread_threadCount (pool : ThreadPool) :
    threadCount (removeThread (addThread pool)) = threadCount pool ∧
    threadCount pool = List.length pool + 1 ∧ 1 ≤ threadCount pool := by
  refine ⟨?_, rfl, Nat.le_add_left 1 _⟩
  have hne : List.isEmpty (addThread pool) = false := by
    cases pool <;> simp [addThread]
  simp [removeThread, hne, addThread, threadCount]

/-- C2: the code's pathLength of the single-point path [(3,4)] is 5, the
norm of the point itself, not 0: std::adjacent_difference copies the first
element unchanged into the output, so pathLength returns the norm of the
first path point plus the sum of the segment lengths.  The claim (and the
comment in Solver::Solve describing g(n) as the length of the path) says the
sum of consecutive distances, which is 0 for a one-point path. -/
theorem pathLength_singleton_eq_five :
    Node.pathLength ⟨[⟨3, 4⟩]⟩ = 5 := by
  show (List.map Vec2.magnitude (Node.adjDiff [⟨3, 4⟩])).sum = 5
  have h1 : Node.adjDiff [⟨3, 4⟩] = [⟨3, 4⟩] := rfl
  rw [h1]
  have h2 : Vec2.magnitude ⟨3, 4⟩ = 5 := by
    show Real.sqrt (((3 : ℚ) : ℝ) * ((3 : ℚ) : ℝ) + ((4 : ℚ) : ℝ) * ((4 : ℚ) : ℝ)) = 5
    rw [show (((3 : ℚ) : ℝ) * ((3 : ℚ) : ℝ) + ((4 : ℚ) : ℝ) * ((4 : ℚ) : ℝ)) = 25 by norm_num]
    exact sqrt_twentyfive
  simp [h2]

/-- The square obstacle used by the concrete scenarios of the spec. -/
def squareObstacle : Polygon := ⟨[⟨0, 0⟩, ⟨2, 0⟩, ⟨2, 2⟩, ⟨0, 2⟩]⟩

theorem epsilon_pos : 0 < EPSILON := by norm_num [EPSILON]

/-- C7 counterexample: the segment from (-1,1) to (0,0) ends exactly on the
vertex (0,0) of the square obstacle — its endpoint lies inside every
projected range of the polygon, in particular within EPSILON of it — yet
Intersect(Polygon, Line) classifies it as NOT intersecting: a segment that
grazes a polygon vertex is classified as clear, refuting the claim that it
is never classified as clear. -/
theorem grazing_segment_classified_clear :
    (⟨0, 0⟩ : Vec2) ∈ squareObstacle.vertices ∧
    intersectPL squareObstacle ⟨⟨-1, 1⟩, ⟨0, 0⟩⟩ = false := by
  constructor
  · decide
  · with_unfolding_all decide

/-- C7 amended: the EPSILON tolerance of the occlusion test works in the
exclusive direction.  Whenever the projection of the segment's endpoint b
onto the segment's own normal attains the maximum (or the minimum) of the
polygon's projections onto that normal — as happens when b is a silhouette
vertex of the polygon — the test classifies the segment as NOT intersecting:
the polygon's projected range is shrunk by EPSILON, so grazing contact does
not count as an intersection. -/
theorem intersectPL_grazing_clear (p : Polygon) (l : Line)
    (h : Vec2.dot l.b (Vec2.normal (l.a - l.b)) =
           listMax (p.vertices.map (fun v => Vec2.dot v (Vec2.normal (l.a - l.b)))) ∨
         Vec2.dot l.b (Vec2.normal (l.a - l.b)) =
           listMin (p.vertices.map (fun v => Vec2.dot v (Vec2.normal (l.a - l.b))))) :
    intersectPL p l = false := by
  unfold intersectPL
  by_cases hlen : p.vertices.length < 3
  · simp [hlen]
  · simp only [hlen, if_false]
    have hcond : listMin (p.vertices.map (fun v => Vec2.dot v (Vec2.normal (l.a - l.b)))) >
        Vec2.dot l.b (Vec2.normal (l.a - l.b)) - EPSILON ∨
        Vec2.dot l.b (Vec2.normal (l.a - l.b)) + EPSILON >
        listMax (p.vertices.map (fun v => Vec2.dot v (Vec2.normal (l.a - l.b)))) := by
      rcases h with h | h
      · right
        rw [h]
        linarith [epsilon_pos]
      · left
        rw [h]
        linarith [epsilon_pos]
    simp [hcond]

/-- Witness for the amended C7 theorem at the concrete grazing segment of the
square obstacle. -/
theorem intersectPL_grazing_clear_witness :
    (Vec2.dot (⟨0, 0⟩ : Vec2) (Vec2.normal ((⟨-1, 1⟩ : Vec2) - ⟨0, 0⟩)) =
      listMax (squareObstacle.vertices.map
        (fun v => Vec2.dot v (Vec2.normal ((⟨-1, 1⟩ : Vec2) - ⟨0, 0⟩))))) ∧
    intersectPL squareObstacle ⟨⟨-1, 1⟩, ⟨0, 0⟩⟩ = false :=
  ⟨by with_unfolding_all decide, intersectPL_grazing_clear squareObstacle ⟨⟨-1, 1⟩, ⟨0, 0⟩⟩ (Or.inl (by with_unfolding_all decide))⟩

/-- A node reaching (3,4) from the origin; its pathLength is 0 + 5 = 5. -/
def nodeA : Node := ⟨[⟨0, 0⟩, ⟨3, 4⟩]⟩

/-- C3 counterexample: the discovered set already holds an entry at the
candidate's position whose pathLength is equal (hence ≤) to the candidate's,
but Discover does NOT leave the frontier unchanged: the strict comparison
`pathLength() < node.pathLength()` fails on equality, so the entry is
replaced and the candidate is pushed onto the (previously empty) frontier. -/
theorem discover_equal_candidate_pushes :
    List.find? (fun k => k.position == nodeA.position) [nodeA] = some nodeA ∧
    nodeA.pathLength ≤ nodeA.pathLength ∧
    (discover ⟨[], [nodeA], none⟩ nodeA).fringe = [nodeA] := by
  refine ⟨by with_unfolding_all decide, le_refl _, ?_⟩
  have hf : List.find? (fun k => k.position == nodeA.position)
      (SState.discovered ⟨[], [nodeA], none⟩) = some nodeA := by with_unfolding_all decide
  unfold discover
  rw [hf]
  dsimp only
  rw [if_neg (lt_irrefl _)]
  simp

/-- Entries of a list of nodes have pairwise distinct positions (the
discovered set's uniqueness invariant). -/
def UniquePos (d : List Node) : Prop :=
  List.Pairwise (fun a b => a.position ≠ b.position) d

/-- After erasing the position of `n` from a position-unique list, no entry
at that position remains. -/
theorem eraseP_no_match (d : List Node) (n : Node) (huniq : UniquePos d) :
    ∀ k ∈ d.eraseP (fun k => k.position == n.position), k.position ≠ n.position := by
  induction d with
  | nil => intro k hk; simp [List.eraseP] at hk
  | cons h t ih =>
    intro k hk
    by_cases hh : h.position = n.position
    · rw [List.eraseP_cons_of_pos (by simp [hh])] at hk
      intro hkpos
      have := (List.pairwise_cons.mp huniq).1 k hk
      exact this (hh.trans hkpos.symm)
    · rw [List.eraseP_cons_of_neg (by simp [hh])] at hk
      rcases List.mem_cons.mp hk with rfl | hk
      · exact hh
      · exact ih (List.pairwise_cons.mp huniq).2 k hk

/-- C3 amended: Discover drops the candidate only when the stored entry at
its position is STRICTLY shorter; when the stored entry's pathLength is
greater than or equal to the candidate's (and when there is no entry), the
entry for that position becomes the candidate and the candidate is pushed
onto the frontier; the completed path is never touched. -/
theorem discover_replace_or_drop (s : SState) (n : Node)
    (huniq : UniquePos s.discovered) :
    ((∃ m, List.find? (fun k => k.position == n.position) s.discovered = some m ∧
        m.pathLength < n.pathLength) → discover s n = s) ∧
    ((∀ m, List.find? (fun k => k.position == n.position) s.discovered = some m →
        n.pathLength ≤ m.pathLength) →
      (discover s n).fringe = s.fringe ++ [n] ∧
      List.find? (fun k => k.position == n.position) (discover s n).discovered = some n ∧
      (discover s n).complete = s.complete) := by
  constructor
  · rintro ⟨m, hm, hlt⟩
    unfold discover
    rw [hm]
    dsimp only
    rw [if_pos hlt]
  · intro hge
    unfold discover
    cases hfind : List.find? (fun k => k.position == n.position) s.discovered with
    | none =>
      refine ⟨rfl, ?_, rfl⟩
      rw [List.find?_append, hfind]
      simp
    | some m =>
      have hle : n.pathLength ≤ m.pathLength := hge m hfind
      dsimp only
      rw [if_neg (not_lt.mpr hle)]
      refine ⟨rfl, ?_, rfl⟩
      have hnone : List.find? (fun k => k.position == n.position)
          (s.discovered.eraseP (fun k => k.position == n.position)) = none := by
        rw [List.find?_eq_none]
        intro k hk
        simp only [beq_iff_eq]
        exact eraseP_no_match s.discovered n huniq k hk
      rw [List.find?_append, hnone]
      simp

/-- Witness for the amended C3 theorem: an equal-length candidate at an
already-discovered position is re-inserted and pushed. -/
theorem discover_replace_or_drop_witness :
    UniquePos [nodeA] ∧
    (discover ⟨[], [nodeA], none⟩ nodeA).fringe = [nodeA] ∧
    List.find? (fun k => k.position == nodeA.position)
      (discover ⟨[], [nodeA], none⟩ nodeA).discovered = some nodeA := by
  have huniq : UniquePos [nodeA] := List.pairwise_singleton _ _
  have h := (discover_replace_or_drop ⟨[], [nodeA], none⟩ nodeA huniq).2 (by
    intro m hm
    have : m = nodeA := by
      have hf : List.find? (fun k => k.position == nodeA.position) [nodeA] = some nodeA := by
        decide
      rw [show SState.discovered ⟨[], [nodeA], none⟩ = [nodeA] from rfl] at hm
      rw [hf] at hm
      exact (Option.some_injective _ hm).symm
    rw [this])
  exact ⟨huniq, h.1, h.2.1⟩

/-- The discovered set built by a sequence of Discover operations from the
reset (empty) state of one query. -/
noncomputable def foldDiscover (ns : List Node) : SState :=
  ns.foldl discover ⟨[], [], none⟩

/-- Discover preserves the at-most-one-entry-per-position invariant. -/
theorem uniquePos_discover (s : SState) (n : Node) (h : UniquePos s.discovered) :
    UniquePos (discover s n).discovered := by
  unfold discover
  cases hfind : List.find? (fun k => k.position == n.position) s.discovered with
  | none =>
    dsimp only [UniquePos]
    rw [List.pairwise_append]
    refine ⟨h, List.pairwise_singleton _ _, ?_⟩
    intro a ha b hb
    have hb1 : b = n := by simpa using hb
    subst hb1
    have := List.find?_eq_none.mp hfind a ha
    simpa using this
  | some m =>
    dsimp only
    split
    · exact h
    · dsimp only [UniquePos]
      rw [List.pairwise_append]
      refine ⟨List.Pairwise.sublist (List.eraseP_sublist _) h, List.pairwise_singleton _ _, ?_⟩
      intro a ha b hb
      have hb1 : b = n := by simpa using hb
      rw [hb1]
      exact eraseP_no_match s.discovered n h a ha

/-- Erasing entries at a different position does not change the lookup. -/
theorem find?_eraseP_of_ne (l : List Node) (pos q : Vec2) (hne : pos ≠ q) :
    List.find? (fun k => k.position == pos) (l.eraseP (fun k => k.position == q)) =
    List.find? (fun k => k.position == pos) l := by
  induction l with
  | nil => rfl
  | cons h t ih =>
    by_cases hq : h.position = q
    · rw [List.eraseP_cons_of_pos (by simp [hq])]
      rw [List.find?_cons_of_neg _ (by simp [hq, Ne.symm hne])]
    · rw [List.eraseP_cons_of_neg (by simp [hq])]
      by_cases hp : h.position = pos
      · rw [List.find?_cons_of_pos _ (by simp [hp]), List.find?_cons_of_pos _ (by simp [hp])]
      · rw [List.find?_cons_of_neg _ (by simp [hp]), List.find?_cons_of_neg _ (by simp [hp]), ih]

/-- One Discover step can only improve (or keep) the stored entry at any
fixed position. -/
theorem discover_stored_mono (s : SState) (n : Node) (huniq : UniquePos s.discovered)
    (pos : Vec2) (m : Node)
    (hm : List.find? (fun k => k.position == pos) s.discovered = some m) :
    ∃ m', List.find? (fun k => k.position == pos) (discover s n).discovered = some m' ∧
      m'.pathLength ≤ m.pathLength := by
  by_cases hp : pos = n.position
  · rw [hp] at hm ⊢
    unfold discover
    rw [hm]
    dsimp only
    by_cases hlt : m.pathLength < n.pathLength
    · rw [if_pos hlt]
      exact ⟨m, hm, le_refl _⟩
    · rw [if_neg hlt]
      refine ⟨n, ?_, le_of_not_lt hlt⟩
      have hnone : List.find? (fun x => x.position == n.position)
          (s.discovered.eraseP (fun x => x.position == n.position)) = none := by
        rw [List.find?_eq_none]
        intro x hx
        simp only [beq_iff_eq]
        exact eraseP_no_match s.discovered n huniq x hx
      dsimp only
      rw [List.find?_append, hnone]
      simp
  · unfold discover
    cases hfind : List.find? (fun k => k.position == n.position) s.discovered with
    | none =>
      dsimp only
      rw [List.find?_append, hm]
      exact ⟨m, rfl, le_refl _⟩
    | some k =>
      dsimp only
      by_cases hlt : k.pathLength < n.pathLength
      · rw [if_pos hlt]
        exact ⟨m, hm, le_refl _⟩
      · rw [if_neg hlt]
        dsimp only
        rw [List.find?_append, find?_eraseP_of_ne _ _ _ hp, hm]
        exact ⟨m, rfl, le_refl _⟩

/-- The discovered set of any Discover sequence is position-unique. -/
theorem uniquePos_foldDiscover (ns : List Node) : UniquePos (foldDiscover ns).discovered := by
  have hgen : ∀ (l : List Node) (s : SState), UniquePos s.discovered →
      UniquePos (l.foldl discover s).discovered := by
    intro l
    induction l with
    | nil => intro s hs; exact hs
    | cons h t ih =>
      intro s hs
      exact ih (discover s h) (uniquePos_discover s h hs)
  exact hgen ns ⟨[], [], none⟩ List.Pairwise.nil

/-- Monotonicity of the stored entry along any continuation of a Discover
sequence, starting from any position-unique state. -/
theorem foldl_discover_stored_mono (extra : List Node) (s : SState)
    (huniq : UniquePos s.discovered) (pos : Vec2) (m : Node)
    (hm : List.find? (fun k => k.position == pos) s.discovered = some m) :
    ∃ m', List.find? (fun k => k.position == pos) ((extra.foldl discover s).discovered) = some m' ∧
      m'.pathLength ≤ m.pathLength := by
  induction extra generalizing s m with
  | nil => exact ⟨m, hm, le_refl _⟩
  | cons h t ih =>
    obtain ⟨m1, hm1, hle1⟩ := discover_stored_mono s h huniq pos m hm
    obtain ⟨m2, hm2, hle2⟩ := ih (discover s h) (uniquePos_discover s h huniq) m1 hm1
    exact ⟨m2, hm2, le_trans hle2 hle1⟩

/-- C6: over one query the discovered set holds at most one entry per
distinct position (pairwise-distinct positions), and for a fixed position the
stored entry's pathLength never increases across any sequence of Discover
operations: whatever is stored after further Discover calls is at most as
long as what was stored before them. -/
theorem discovered_set_unique_and_monotone (ns extra : List Node) (pos : Vec2) (m m1 : Node)
    (hm : List.find? (fun k => k.position == pos) (foldDiscover ns).discovered = some m)
    (hm1 : List.find? (fun k => k.position == pos) (foldDiscover (ns ++ extra)).discovered =
      some m1) :
    UniquePos (foldDiscover ns).discovered ∧ m1.pathLength ≤ m.pathLength := by
  refine ⟨uniquePos_foldDiscover ns, ?_⟩
  have hsplit : foldDiscover (ns ++ extra) = extra.foldl discover (foldDiscover ns) := by
    unfold foldDiscover
    rw [List.foldl_append]
  obtain ⟨m2, hm2, hle⟩ := foldl_discover_stored_mono extra (foldDiscover ns)
    (uniquePos_foldDiscover ns) pos m hm
  rw [hsplit] at hm1
  rw [hm1] at hm2
  have : m1 = m2 := by simpa using hm2
  subst this
  exact hle

/-- Witness for C6: discovering the same node twice keeps the stored entry
and its pathLength does not increase. -/
theorem discovered_set_unique_and_monotone_witness :
    UniquePos (foldDiscover [nodeA]).discovered ∧ nodeA.pathLength ≤ nodeA.pathLength := by
  have hd1 : (foldDiscover [nodeA]).discovered = [nodeA] := rfl
  have hm : List.find? (fun k => k.position == nodeA.position)
      (foldDiscover [nodeA]).discovered = some nodeA := by
    rw [hd1]
    with_unfolding_all decide
  have hfind : List.find? (fun k => k.position == nodeA.position)
      (SState.discovered (foldDiscover [nodeA])) = some nodeA := hm
  have hd2 : (foldDiscover ([nodeA] ++ [nodeA])).discovered = [nodeA] := by
    show (discover (foldDiscover [nodeA]) nodeA).discovered = [nodeA]
    unfold discover
    rw [hfind]
    dsimp only
    rw [if_neg (lt_irrefl _)]
    rw [hd1]
    rfl
  have hm1 : List.find? (fun k => k.position == nodeA.position)
      (foldDiscover ([nodeA] ++ [nodeA])).discovered = some nodeA := by
    rw [hd2]
    with_unfolding_all decide
  exact discovered_set_unique_and_monotone [nodeA] [nodeA] nodeA.position nodeA nodeA hm hm1

/-- Discover never touches the completed path. -/
theorem discover_complete (s : SState) (n : Node) : (discover s n).complete = s.complete := by
  unfold discover
  cases hfind : List.find? (fun k => k.position == n.position) s.discovered with
  | none => rfl
  | some m =>
    dsimp only
    split
    · rfl
    · rfl

/-- Expanding against one polygon never touches the completed path. -/
theorem expandPolygon_complete (w : List Polygon) (n : Node) (st : SState) (p : Polygon) :
    (expandPolygon w n st p).complete = st.complete := by
  unfold expandPolygon
  cases hfind : p.vertices.findIdx? (fun v => n.position == v) with
  | some i =>
    dsimp only
    rw [discover_complete, discover_complete]
  | none =>
    dsimp only
    split
    · split
      · rw [discover_complete, discover_complete]
      · rw [discover_complete]
    · split
      · rw [discover_complete]
      · rfl

/-- Folding the per-polygon expansion never touches the completed path. -/
theorem foldl_expandPolygon_complete (w : List Polygon) (n : Node) :
    ∀ (ps : List Polygon) (st : SState), (ps.foldl (expandPolygon w n) st).complete = st.complete := by
  intro ps
  induction ps with
  | nil => intro st; rfl
  | cons p t ih =>
    intro st
    rw [List.foldl_cons, ih, expandPolygon_complete]

/-- The completed path after processing a popped node: it becomes the popped
node exactly when the popped node sits on the goal, and is untouched
otherwise. -/
theorem discover_if_complete (c : Prop) [Decidable c] (s : SState) (x : Node) :
    (if c then discover s x else s).complete = s.complete := by
  split
  · exact discover_complete _ _
  · rfl

theorem process_complete (w : List Polygon) (g : Vec2) (n : Node) (s : SState) :
    (process w g n s).complete = if n.position = g then some n else s.complete := by
  unfold process
  rw [foldl_expandPolygon_complete, discover_if_complete]
  by_cases hpos : n.position = g
  · rw [if_pos hpos, if_pos hpos]
  · rw [if_neg hpos, if_neg hpos]

/-- The element selected from the fringe belongs to the fringe. -/
theorem selectMin_mem (g : Vec2) (h : Node) (t : List Node) : selectMin g h t ∈ h :: t := by
  unfold selectMin
  have hgen : ∀ (l : List Node) (b : Node),
      (l.foldl (fun best m => if fval g m < fval g best then m else best) b) = b ∨
      (l.foldl (fun best m => if fval g m < fval g best then m else best) b) ∈ l := by
    intro l
    induction l with
    | nil => intro b; exact Or.inl rfl
    | cons x xs ih =>
      intro b
      rw [List.foldl_cons]
      rcases ih (if fval g x < fval g b then x else b) with heq | hmem
      · rw [heq]
        split
        · exact Or.inr (List.mem_cons_self _ _)
        · exact Or.inl rfl
      · exact Or.inr (List.mem_cons_of_mem _ hmem)
  rcases hgen t h with heq | hmem
  · rw [heq]
    exact List.mem_cons_self _ _
  · exact List.mem_cons_of_mem _ hmem

/-- A successful pop returns an element of the fringe. -/
theorem popMinF_mem (g : Vec2) (l : List Node) (n : Node) (rest : List Node)
    (h : popMinF g l = some (n, rest)) : n ∈ l := by
  cases l with
  | nil => exact absurd h (by simp [popMinF])
  | cons x xs =>
    have : n = selectMin g x xs := by
      unfold popMinF at h
      exact (Prod.mk.injEq _ _ _ _ ▸ Option.some_injective _ h).1.symm
    rw [this]
    exact selectMin_mem g x xs

/-- The completed path can only change when the query runs: the solver holds
nodes at the goal position, replaced only by strictly shorter ones. -/
def CompleteInv (g : Vec2) (s : SState) : Prop :=
  ∀ c, s.complete = some c → c.position = g

/-- A loop iteration that ends the pass leaves the completed path unchanged. -/
theorem runStep_done_complete (w : List Polygon) (g : Vec2) (s s1 : SState)
    (h : runStep w g s = .done s1) : s1.complete = s.complete := by
  unfold runStep at h
  cases hpop : popMinF g s.fringe with
  | none =>
    rw [hpop] at h
    cases h
    rfl
  | some nr =>
    rw [hpop] at h
    obtain ⟨n, rest⟩ := nr
    cases hc : s.complete with
    | none =>
      rw [hc] at h
      cases h
    | some c =>
      rw [hc] at h
      dsimp only at h
      by_cases hge : n.pathLength ≥ c.pathLength
      · rw [if_pos hge] at h
        cases h
        rfl
      · rw [if_neg hge] at h
        cases h

/-- A loop iteration that continues either leaves the completed path
unchanged, or replaces it by a popped node at the goal that is strictly
shorter than any previously completed path. -/
theorem runStep_cont_complete (w : List Polygon) (g : Vec2) (s s1 : SState)
    (h : runStep w g s = .cont s1) :
    s1.complete = s.complete ∨
    ∃ n, s1.complete = some n ∧ n.position = g ∧
      ∀ c, s.complete = some c → n.pathLength < c.pathLength := by
  unfold runStep at h
  cases hpop : popMinF g s.fringe with
  | none =>
    rw [hpop] at h
    cases h
  | some nr =>
    rw [hpop] at h
    obtain ⟨n, rest⟩ := nr
    cases hc : s.complete with
    | none =>
      rw [hc] at h
      dsimp only at h
      cases h
      rw [process_complete]
      by_cases hpos : n.position = g
      · right
        refine ⟨n, by rw [if_pos hpos], hpos, ?_⟩
        intro c hcc
        cases hcc
      · left
        rw [if_neg hpos]
    | some c =>
      rw [hc] at h
      dsimp only at h
      by_cases hge : n.pathLength ≥ c.pathLength
      · rw [if_pos hge] at h
        cases h
      · rw [if_neg hge] at h
        cases h
        rw [process_complete]
        by_cases hpos : n.position = g
        · right
          refine ⟨n, by rw [if_pos hpos], hpos, ?_⟩
          intro c2 hcc
          cases hcc
          exact lt_of_not_ge hge
        · left
          rw [if_neg hpos]

/-- The goal-position invariant of the completed path is preserved by the
whole loop. -/
theorem run_completeInv (w : List Polygon) (g : Vec2) :
    ∀ (fuel : ℕ) (s : SState), CompleteInv g s → CompleteInv g ((run w g fuel s).1) := by
  intro fuel
  induction fuel with
  | zero => intro s h; exact h
  | succ k ih =>
    intro s h
    cases hstep : runStep w g s with
    | done s1 =>
      simp only [run, hstep]
      intro c hc
      exact h c ((runStep_done_complete w g s s1 hstep) ▸ hc)
    | cont s1 =>
      simp only [run, hstep]
      apply ih
      rcases runStep_cont_complete w g s s1 hstep with heq | ⟨n, hn, hpos, _⟩
      · intro c hc
        exact h c (heq ▸ hc)
      · intro c hc
        rw [hn] at hc
        cases hc
        exact hpos

/-- Once set, the completed path is only ever replaced by a strictly shorter
completed path, over any remaining portion of the loop. -/
theorem run_complete_mono (w : List Polygon) (g : Vec2) :
    ∀ (fuel : ℕ) (s : SState) (c : Node), CompleteInv g s → s.complete = some c →
    ∃ c2, ((run w g fuel s).1).complete = some c2 ∧ c2.position = g ∧
      (c2 = c ∨ c2.pathLength < c.pathLength) := by
  intro fuel
  induction fuel with
  | zero =>
    intro s c hinv hc
    exact ⟨c, hc, hinv c hc, Or.inl rfl⟩
  | succ k ih =>
    intro s c hinv hc
    cases hstep : runStep w g s with
    | done s1 =>
      simp only [run, hstep]
      refine ⟨c, ?_, hinv c hc, Or.inl rfl⟩
      rw [runStep_done_complete w g s s1 hstep, hc]
    | cont s1 =>
      simp only [run, hstep]
      have hinv1 : CompleteInv g s1 := by
        rcases runStep_cont_complete w g s s1 hstep with heq | ⟨n, hn, hpos, _⟩
        · intro c2 hc2
          exact hinv c2 (heq ▸ hc2)
        · intro c2 hc2
          rw [hn] at hc2
          cases hc2
          exact hpos
      rcases runStep_cont_complete w g s s1 hstep with heq | ⟨n, hn, hpos, hlt⟩
      · obtain ⟨c2, hc2, hc2pos, hc2le⟩ := ih s1 c hinv1 (heq ▸ hc)
        exact ⟨c2, hc2, hc2pos, hc2le⟩
      · obtain ⟨c2, hc2, hc2pos, hc2le⟩ := ih s1 n hinv1 hn
        refine ⟨c2, hc2, hc2pos, Or.inr ?_⟩
        rcases hc2le with rfl | hlt2
        · exact hlt c hc
        · exact lt_trans hlt2 (hlt c hc)

/-- Running `a + b` steps is running `a` steps and, unless the loop already
ended, `b` more from the intermediate state. -/
theorem run_add (w : List Polygon) (g : Vec2) :
    ∀ (a b : ℕ) (s : SState), run w g (a + b) s =
      match run w g a s with
      | (s1, true) => (s1, true)
      | (s1, false) => run w g b s1 := by
  intro a
  induction a with
  | zero =>
    intro b s
    rw [Nat.zero_add]
    rfl
  | succ k ih =>
    intro b s
    rw [Nat.succ_add]
    show (match runStep w g s with
          | .done s1 => (s1, true)
          | .cont s1 => run w g (k + b) s1) = _
    cases hstep : runStep w g s with
    | done s1 =>
      simp only [run, hstep]
    | cont s1 =>
      simp only [run, hstep]
      exact ih b s1

/-- The solver state after running one query for the given fuel. -/
noncomputable def solveState (w : List Polygon) (start g : Vec2) (fuel : ℕ) : SState :=
  (run w g fuel (initState start)).1

/-- C4: throughout one query, the best-completed-path only ever holds nodes
whose position is the goal, and once set it persists and is only ever
replaced by a strictly shorter completed path — never by one of equal or
greater pathLength. -/
theorem complete_goal_position_and_strict_decrease (w : List Polygon) (start g : Vec2)
    (f1 f2 : ℕ) (c1 : Node) (hle : f1 ≤ f2)
    (hc1 : (solveState w start g f1).complete = some c1) :
    c1.position = g ∧
    ∃ c2, (solveState w start g f2).complete = some c2 ∧
      (c2 = c1 ∨ c2.pathLength < c1.pathLength) := by
  have hinv0 : CompleteInv g (initState start) := by
    intro c hc
    cases hc
  have hpos1 : c1.position = g :=
    run_completeInv w g f1 (initState start) hinv0 c1 hc1
  refine ⟨hpos1, ?_⟩
  obtain ⟨d, rfl⟩ := Nat.exists_eq_add_of_le hle
  rw [solveState, run_add]
  cases hrun : run w g f1 (initState start) with
  | mk s1 fin =>
    have hs1 : s1 = solveState w start g f1 := by
      rw [solveState, hrun]
    cases fin with
    | true =>
      dsimp only
      exact ⟨c1, by rw [hs1, hc1], Or.inl rfl⟩
    | false =>
      dsimp only
      have hinv1 : CompleteInv g s1 := by
        rw [hs1]
        exact run_completeInv w g f1 (initState start) hinv0
      obtain ⟨c2, hc2, _, hc2le⟩ :=
        run_complete_mono w g d s1 c1 hinv1 (by rw [hs1, hc1])
      exact ⟨c2, hc2, hc2le⟩

/-- Witness for C4 at a concrete query: with no obstacles and start = goal =
(0,0), one step completes the start node, and it persists with more fuel. -/
theorem complete_goal_position_witness :
    (1 : ℕ) ≤ 2 ∧
    (Node.position ⟨[⟨0, 0⟩]⟩ = (⟨0, 0⟩ : Vec2) ∧
     ∃ c2, (solveState [] ⟨0, 0⟩ ⟨0, 0⟩ 2).complete = some c2 ∧
       (c2 = (⟨[⟨0, 0⟩]⟩ : Node) ∨ c2.pathLength < Node.pathLength ⟨[⟨0, 0⟩]⟩)) := by
  refine ⟨by decide, ?_⟩
  have h1 : (solveState [] ⟨0, 0⟩ ⟨0, 0⟩ 1).complete = some ⟨[⟨0, 0⟩]⟩ := by
    show ((run [] ⟨0, 0⟩ 1 (initState ⟨0, 0⟩)).1).complete = some ⟨[⟨0, 0⟩]⟩
    have hstep : runStep [] ⟨0, 0⟩ (initState ⟨0, 0⟩) =
        .cont (process [] ⟨0, 0⟩ ⟨[⟨0, 0⟩]⟩ ⟨[], [], none⟩) := rfl
    simp only [run, hstep]
    rw [process_complete]
    rfl
  exact complete_goal_position_and_strict_decrease [] ⟨0, 0⟩ ⟨0, 0⟩ 1 2 ⟨[⟨0, 0⟩]⟩
    (by decide) h1

/-- C5 counterexample: in the first expansion pass of the query with no
obstacles and start = goal = (0,0), the only node ever popped has position
equal to the goal, yet it is still expanded: the goal-visibility discovery
fires for it and inserts the successor [(0,0),(0,0)] into the discovered
set and the frontier.  The code has no `else` between the goal check and
the expansion, so discovery is not restricted to nodes whose position
differs from the goal. -/
theorem goal_node_still_expanded :
    popMinF (⟨0, 0⟩ : Vec2) (initState ⟨0, 0⟩).fringe = some (⟨[⟨0, 0⟩]⟩, []) ∧
    Node.position ⟨[⟨0, 0⟩]⟩ = (⟨0, 0⟩ : Vec2) ∧
    ((run [] ⟨0, 0⟩ 1 (initState ⟨0, 0⟩)).1).discovered = [⟨[⟨0, 0⟩, ⟨0, 0⟩]⟩] ∧
    ((run [] ⟨0, 0⟩ 1 (initState ⟨0, 0⟩)).1).fringe = [⟨[⟨0, 0⟩, ⟨0, 0⟩]⟩] :=
  ⟨rfl, rfl, rfl, rfl⟩

/-- C5 amended: a popped node whose position equals the goal updates the
best-completed-path and is then STILL expanded exactly like any other node.
In particular, over an empty world (where nothing is occluded and there are
no polygons to iterate), processing a goal-positioned node records it as the
completed path and also performs the goal-visibility discovery, pushing the
successor path ++ [goal] onto the frontier and into the discovered set. -/
theorem goal_node_expansion (g : Vec2) (s : SState) (n : Node)
    (hpos : n.position = g)
    (hnofind : List.find? (fun k => k.position == g) s.discovered = none) :
    (process [] g n s).complete = some n ∧
    (process [] g n s).fringe = s.fringe ++ [⟨n.path ++ [g]⟩] ∧
    (process [] g n s).discovered = s.discovered ++ [⟨n.path ++ [g]⟩] := by
  have hp2 : Node.position ⟨n.path ++ [g]⟩ = g := by
    show (n.path ++ [g]).getLastD ⟨0, 0⟩ = g
    rw [List.getLastD_concat]
  unfold process
  rw [List.foldl_nil, if_pos hpos]
  have hvis : intersectWorld [] ⟨n.position, g⟩ = false := rfl
  rw [hvis]
  rw [if_pos (by simp)]
  unfold discover
  have hpred : (fun (k : Node) => k.position == Node.position ⟨n.path ++ [g]⟩) =
      (fun (k : Node) => k.position == g) := by
    funext k
    rw [hp2]
  rw [hpred]
  dsimp only
  rw [hnofind]
  exact ⟨rfl, rfl, rfl⟩

/-- Witness for the amended C5 theorem: the seed node of the start = goal =
(0,0) query over the empty world. -/
theorem goal_node_expansion_witness :
    Node.position ⟨[⟨0, 0⟩]⟩ = (⟨0, 0⟩ : Vec2) ∧
    (process [] ⟨0, 0⟩ ⟨[⟨0, 0⟩]⟩ ⟨[], [], none⟩).complete = some ⟨[⟨0, 0⟩]⟩ ∧
    (process [] ⟨0, 0⟩ ⟨[⟨0, 0⟩]⟩ ⟨[], [], none⟩).fringe = [] ++ [⟨[⟨0, 0⟩, ⟨0, 0⟩]⟩] := by
  have h := goal_node_expansion ⟨0, 0⟩ ⟨[], [], none⟩ ⟨[⟨0, 0⟩]⟩ rfl rfl
  exact ⟨rfl, h.1, h.2.1⟩

/-- Appending one point extends the adjacent-difference sequence by the
difference with the previous last point. -/
theorem adjDiff_concat : ∀ (v : Vec2) (vs : List Vec2) (x : Vec2),
    Node.adjDiff (v :: (vs ++ [x])) =
      Node.adjDiff (v :: vs) ++ [x - (v :: vs).getLastD ⟨0, 0⟩] := by
  intro v vs
  induction vs generalizing v with
  | nil => intro x; rfl
  | cons w ws ih =>
    intro x
    have h := ih w x
    show v :: List.zipWith (fun a b => a - b) (w :: (ws ++ [x])) (v :: w :: (ws ++ [x])) = _
    have hW : List.zipWith (fun a b => a - b) (w :: (ws ++ [x])) (v :: w :: (ws ++ [x])) =
        (w - v) :: List.zipWith (fun a b => a - b) (ws ++ [x]) (w :: (ws ++ [x])) := rfl
    rw [hW]
    have htail : List.zipWith (fun a b => a - b) (ws ++ [x]) (w :: (ws ++ [x])) =
        List.zipWith (fun a b => a - b) ws (w :: ws) ++ [x - (w :: ws).getLastD ⟨0, 0⟩] := by
      have h2 := congrArg List.tail h
      simpa [Node.adjDiff] using h2
    rw [htail]
    show v :: (w - v) :: (List.zipWith (fun a b => a - b) ws (w :: ws) ++
        [x - (w :: ws).getLastD ⟨0, 0⟩]) = _
    have hlast : (v :: w :: ws).getLastD ⟨0, 0⟩ = (w :: ws).getLastD ⟨0, 0⟩ := by
      simp [List.getLastD]
    rw [Node.adjDiff, hlast]
    rfl

/-- pathLength of a path extended by one point is the pathLength of the
prefix plus the length of the new segment. -/
theorem pathLength_concat (p : List Vec2) (hp : p ≠ []) (x : Vec2) :
    Node.pathLength ⟨p ++ [x]⟩ =
      Node.pathLength ⟨p⟩ + Vec2.magnitude (x - p.getLastD ⟨0, 0⟩) := by
  obtain ⟨v, vs, rfl⟩ := List.exists_cons_of_ne_nil hp
  show ((Node.adjDiff (v :: (vs ++ [x]))).map Vec2.magnitude).sum = _
  rw [adjDiff_concat, List.map_append, List.sum_append]
  simp [Node.pathLength]

/-- A node's pathLength never falls when its path is extended. -/
theorem pathLength_concat_ge (p : List Vec2) (hp : p ≠ []) (x : Vec2) :
    Node.pathLength ⟨p⟩ ≤ Node.pathLength ⟨p ++ [x]⟩ := by
  rw [pathLength_concat p hp x]
  exact le_add_of_nonneg_right (Vec2.magnitude_nonneg _)

theorem getLastD_mem (l : List Vec2) (hl : l ≠ []) (d : Vec2) : l.getLastD d ∈ l := by
  cases l with
  | nil => exact absurd rfl hl
  | cons x xs =>
    rw [List.getLastD_eq_getLast?, List.getLast?_eq_getLast (x :: xs) (by simp)]
    exact List.getLast_mem _

theorem headD_mem (l : List Vec2) (hl : l ≠ []) (d : Vec2) : l.headD d ∈ l := by
  cases l with
  | nil => exact absurd rfl hl
  | cons x xs => exact List.mem_cons_self _ _

theorem getD_mem (l : List Vec2) (i : ℕ) (d : Vec2) (h : i < l.length) : l.getD i d ∈ l := by
  rw [List.getD_eq_getElem l d h]
  exact List.getElem_mem h

/-- A successful findIdx? returns an index below the length. -/
theorem findIdx?_some_lt (p : Vec2 → Bool) (l : List Vec2) (i : ℕ)
    (h : l.findIdx? p = some i) : i < l.length :=
  (List.findIdx?_eq_some_iff_findIdx_eq.mp h).1

/-- Both components of minmaxWith on a nonempty list are members of it. -/
theorem minmaxWith_mem (lt : Vec2 → Vec2 → Bool) (l : List Vec2) (hl : l ≠ []) :
    (minmaxWith lt l).1 ∈ l ∧ (minmaxWith lt l).2 ∈ l := by
  cases l with
  | nil => exact absurd rfl hl
  | cons h t =>
    have hgen : ∀ (xs : List Vec2) (mm : Vec2 × Vec2),
        (((xs.foldl (fun mm v =>
            (if lt v mm.1 then v else mm.1, if lt v mm.2 then mm.2 else v)) mm).1 = mm.1 ∨
          (xs.foldl (fun mm v =>
            (if lt v mm.1 then v else mm.1, if lt v mm.2 then mm.2 else v)) mm).1 ∈ xs) ∧
        ((xs.foldl (fun mm v =>
            (if lt v mm.1 then v else mm.1, if lt v mm.2 then mm.2 else v)) mm).2 = mm.2 ∨
          (xs.foldl (fun mm v =>
            (if lt v mm.1 then v else mm.1, if lt v mm.2 then mm.2 else v)) mm).2 ∈ xs)) := by
      intro xs
      induction xs with
      | nil => intro mm; exact ⟨Or.inl rfl, Or.inl rfl⟩
      | cons y ys ih =>
        intro mm
        rw [List.foldl_cons]
        rcases ih (if lt y mm.1 then y else mm.1, if lt y mm.2 then mm.2 else y) with ⟨h1, h2⟩
        constructor
        · rcases h1 with heq | hmem
          · rw [heq]
            dsimp only
            split
            · exact Or.inr (List.mem_cons_self _ _)
            · exact Or.inl rfl
          · exact Or.inr (List.mem_cons_of_mem _ hmem)
        · rcases h2 with heq | hmem
          · rw [heq]
            dsimp only
            split
            · exact Or.inl rfl
            · exact Or.inr (List.mem_cons_self _ _)
          · exact Or.inr (List.mem_cons_of_mem _ hmem)
    unfold minmaxWith
    rcases hgen t (h, h) with ⟨h1, h2⟩
    constructor
    · rcases h1 with heq | hmem
      · rw [heq]; exact List.mem_cons_self _ _
      · exact List.mem_cons_of_mem _ hmem
    · rcases h2 with heq | hmem
      · rw [heq]; exact List.mem_cons_self _ _
      · exact List.mem_cons_of_mem _ hmem

/-- Every fringe element after a Discover was there before, or is the
discovered candidate. -/
theorem discover_fringe_mem (s : SState) (k : Node) :
    ∀ m ∈ (discover s k).fringe, m ∈ s.fringe ∨ m = k := by
  intro m hm
  unfold discover at hm
  cases hfind : List.find? (fun q => q.position == k.position) s.discovered with
  | none =>
    rw [hfind] at hm
    dsimp only at hm
    rcases List.mem_append.mp hm with h1 | h2
    · exact Or.inl h1
    · exact Or.inr (by simpa using h2)
  | some q =>
    rw [hfind] at hm
    dsimp only at hm
    by_cases hlt : q.pathLength < k.pathLength
    · rw [if_pos hlt] at hm
      exact Or.inl hm
    · rw [if_neg hlt] at hm
      dsimp only at hm
      rcases List.mem_append.mp hm with h1 | h2
      · exact Or.inl h1
      · exact Or.inr (by simpa using h2)

/-- All points of each polygon of a world, in order. -/
def worldVertices (w : List Polygon) : List Vec2 :=
  (w.map Polygon.vertices).flatten

/-- Every fringe element after expanding one polygon was there before, or is
the node's path extended by one vertex of that polygon. -/
theorem expandPolygon_fringe_mem (w : List Polygon) (n : Node) (st : SState) (p : Polygon)
    (hne : p.vertices ≠ []) :
    ∀ m ∈ (expandPolygon w n st p).fringe,
      m ∈ st.fringe ∨ ∃ pt ∈ p.vertices, m.path = n.path ++ [pt] := by
  intro m hm
  unfold expandPolygon at hm
  cases hidx : p.vertices.findIdx? (fun v => n.position == v) with
  | some i =>
    rw [hidx] at hm
    dsimp only at hm
    have hilt : i < p.vertices.length := findIdx?_some_lt _ p.vertices i hidx
    have hprev : (if i = 0 then p.vertices.getLastD ⟨0, 0⟩ else p.vertices.getD (i - 1) ⟨0, 0⟩) ∈
        p.vertices := by
      split
      · exact getLastD_mem _ hne _
      · exact getD_mem _ _ _ (by omega)
    have hnext : (if i = p.vertices.length - 1 then p.vertices.headD ⟨0, 0⟩
        else p.vertices.getD (i + 1) ⟨0, 0⟩) ∈ p.vertices := by
      split
      · exact headD_mem _ hne _
      · rename_i hne2
        exact getD_mem _ _ _ (by omega)
    rcases discover_fringe_mem _ _ m hm with hm2 | rfl
    · rcases discover_fringe_mem _ _ m hm2 with hm3 | rfl
      · exact Or.inl hm3
      · exact Or.inr ⟨_, hprev, rfl⟩
    · exact Or.inr ⟨_, hnext, rfl⟩
  | none =>
    rw [hidx] at hm
    dsimp only at hm
    have hex := minmaxWith_mem (angleLt n.position) p.vertices hne
    rcases hsplit2 : (decide (¬ intersectWorld w ⟨n.position, (angularExtrema p n.position).2⟩ =
        true) : Bool) with hb2 | hb2
    all_goals {
      by_cases h2 : ¬ intersectWorld w ⟨n.position, (angularExtrema p n.position).2⟩ = true
      · rw [if_pos h2] at hm
        rcases discover_fringe_mem _ _ m hm with hm2 | rfl
        · by_cases h1 : ¬ intersectWorld w ⟨n.position, (angularExtrema p n.position).1⟩ = true
          · rw [if_pos h1] at hm2
            rcases discover_fringe_mem _ _ m hm2 with hm3 | rfl
            · exact Or.inl hm3
            · exact Or.inr ⟨_, hex.1, rfl⟩
          · rw [if_neg h1] at hm2
            exact Or.inl hm2
        · exact Or.inr ⟨_, hex.2, rfl⟩
      · rw [if_neg h2] at hm
        by_cases h1 : ¬ intersectWorld w ⟨n.position, (angularExtrema p n.position).1⟩ = true
        · rw [if_pos h1] at hm
          rcases discover_fringe_mem _ _ m hm with hm2 | rfl
          · exact Or.inl hm2
          · exact Or.inr ⟨_, hex.1, rfl⟩
        · rw [if_neg h1] at hm
          exact Or.inl hm
    }

/-- Every fringe element after folding the per-polygon expansion was there
before, or extends the node's path by a vertex of the world. -/
theorem foldl_expandPolygon_fringe_mem (w : List Polygon) (n : Node) :
    ∀ (ps : List Polygon), (∀ p ∈ ps, p.vertices ≠ []) → ∀ (st : SState),
      ∀ m ∈ (ps.foldl (expandPolygon w n) st).fringe,
        m ∈ st.fringe ∨ ∃ pt, pt ∈ worldVertices ps ∧ m.path = n.path ++ [pt] := by
  intro ps
  induction ps with
  | nil => intro _ st m hm; exact Or.inl hm
  | cons p t ih =>
    intro hne st m hm
    rw [List.foldl_cons] at hm
    rcases ih (fun q hq => hne q (List.mem_cons_of_mem _ hq)) (expandPolygon w n st p) m hm with
      hm2 | ⟨pt, hpt, hpath⟩
    · rcases expandPolygon_fringe_mem w n st p (hne p (List.mem_cons_self _ _)) m hm2 with
        hm3 | ⟨pt, hpt, hpath⟩
      · exact Or.inl hm3
      · refine Or.inr ⟨pt, ?_, hpath⟩
        unfold worldVertices
        simp only [List.map_cons, List.flatten_cons, List.mem_append]
        exact Or.inl hpt
    · refine Or.inr ⟨pt, ?_, hpath⟩
      unfold worldVertices at hpt ⊢
      simp only [List.map_cons, List.flatten_cons, List.mem_append]
      exact Or.inr hpt

/-- Every fringe element after processing a popped node was there before, or
extends the popped node's path by one point: the goal (when it was visible)
or a vertex of the world. -/
theorem process_fringe_mem (w : List Polygon) (g : Vec2) (n : Node) (s : SState)
    (hne : ∀ p ∈ w, p.vertices ≠ []) :
    ∀ m ∈ (process w g n s).fringe,
      m ∈ s.fringe ∨
      ∃ pt, ((pt = g ∧ intersectWorld w ⟨n.position, g⟩ = false) ∨ pt ∈ worldVertices w) ∧
        m.path = n.path ++ [pt] := by
  intro m hm
  unfold process at hm
  rcases foldl_expandPolygon_fringe_mem w n w hne _ m hm with hm2 | ⟨pt, hpt, hpath⟩
  · by_cases hvis : ¬ intersectWorld w ⟨n.position, g⟩ = true
    · rw [if_pos hvis] at hm2
      rcases discover_fringe_mem _ _ m hm2 with hm3 | rfl
      · left
        split at hm3
        · exact hm3
        · exact hm3
      · exact Or.inr ⟨g, Or.inl ⟨rfl, by simpa using hvis⟩, rfl⟩
    · rw [if_neg hvis] at hm2
      left
      split at hm2
      · exact hm2
      · exact hm2
  · exact Or.inr ⟨pt, Or.inr hpt, hpath⟩

/-- Once a completed path exists and nothing on the fringe is shorter, the
next loop iteration ends the pass with the completed path intact. -/
theorem run_break (w : List Polygon) (g : Vec2) (fuel : ℕ) (s : SState) (c : Node)
    (hc : s.complete = some c)
    (hall : ∀ m ∈ s.fringe, c.pathLength ≤ m.pathLength) :
    (run w g (fuel + 1) s).2 = true ∧ ((run w g (fuel + 1) s).1).complete = some c := by
  cases hpop : popMinF g s.fringe with
  | none =>
    have hstep : runStep w g s = .done s := by
      unfold runStep
      rw [hpop]
    simp only [run, hstep]
    exact ⟨trivial, hc⟩
  | some nr =>
    obtain ⟨n, rest⟩ := nr
    have hmem : n ∈ s.fringe := popMinF_mem g s.fringe n rest hpop
    have hge : n.pathLength ≥ c.pathLength := hall n hmem
    have hstep : runStep w g s = .done { s with fringe := rest } := by
      unfold runStep
      rw [hpop, hc]
      dsimp only
      rw [if_pos hge]
    simp only [run, hstep]
    exact ⟨trivial, hc⟩

/-- Strict interior of a convex polygon, following the spec's words for C8
("goal lies strictly inside a polygon"): the point projects strictly between
the polygon's minimum and maximum on every edge normal. -/
def strictlyInPolygon (p : Polygon) (v : Vec2) : Bool :=
  decide (3 ≤ p.vertices.length) &&
  (edgeNormals p.vertices).all (fun n =>
    let pprojs := p.vertices.map (fun u => Vec2.dot u n)
    decide (listMin pprojs < Vec2.dot v n) && decide (Vec2.dot v n < listMax pprojs))

/-- The state after the single expansion of the query used against C8:
world = the square obstacle, start = goal = its centre (1,1). -/
noncomputable def c8AfterSeed : SState :=
  process [squareObstacle] ⟨1, 1⟩ ⟨[⟨1, 1⟩]⟩ ⟨[], [], none⟩

/-- C8 counterexample: the goal (1,1) lies strictly inside the square
obstacle, yet with start = goal = (1,1) the query terminates normally and
FindPath returns the non-empty path [(1,1)]: the seed node is popped,
completes at the goal, and the next iteration stops on the early-termination
bound — so a node at the goal position IS completed and the returned
sequence is not empty. -/
theorem goal_strictly_inside_nonempty_path :
    strictlyInPolygon squareObstacle ⟨1, 1⟩ = true ∧
    (run [squareObstacle] ⟨1, 1⟩ 2 (initState ⟨1, 1⟩)).2 = true ∧
    findPath [squareObstacle] ⟨1, 1⟩ ⟨1, 1⟩ 2 = [⟨1, 1⟩] := by
  have hstep : runStep [squareObstacle] ⟨1, 1⟩ (initState ⟨1, 1⟩) = .cont c8AfterSeed := rfl
  have hcomp : c8AfterSeed.complete = some ⟨[⟨1, 1⟩]⟩ := by
    show (process [squareObstacle] ⟨1, 1⟩ ⟨[⟨1, 1⟩]⟩ ⟨[], [], none⟩).complete = _
    rw [process_complete]
    rfl
  have hne : ∀ p ∈ [squareObstacle], p.vertices ≠ [] := by
    intro p hp
    rw [List.mem_singleton] at hp
    subst hp
    simp [squareObstacle]
  have hall : ∀ m ∈ c8AfterSeed.fringe, Node.pathLength ⟨[⟨1, 1⟩]⟩ ≤ m.pathLength := by
    intro m hm
    rcases process_fringe_mem [squareObstacle] ⟨1, 1⟩ ⟨[⟨1, 1⟩]⟩ ⟨[], [], none⟩ hne m hm with
      hm2 | ⟨pt, _, hpath⟩
    · exact absurd hm2 (List.not_mem_nil m)
    · have hm3 : m = ⟨[⟨1, 1⟩] ++ [pt]⟩ := by
        cases m with
        | mk mp => exact congrArg Node.mk hpath
      rw [hm3]
      exact pathLength_concat_ge [⟨1, 1⟩] (by simp) pt
  have h2 : run [squareObstacle] ⟨1, 1⟩ 2 (initState ⟨1, 1⟩) =
      run [squareObstacle] ⟨1, 1⟩ 1 c8AfterSeed := by
    show (match runStep [squareObstacle] ⟨1, 1⟩ (initState ⟨1, 1⟩) with
          | .done s1 => (s1, true)
          | .cont s1 => run [squareObstacle] ⟨1, 1⟩ 1 s1) =
        run [squareObstacle] ⟨1, 1⟩ 1 c8AfterSeed
    rw [hstep]
  obtain ⟨hfin, hcomp2⟩ :=
    run_break [squareObstacle] ⟨1, 1⟩ 0 c8AfterSeed ⟨[⟨1, 1⟩]⟩ hcomp hall
  refine ⟨by with_unfolding_all decide, ?_, ?_⟩
  · rw [h2]
    exact hfin
  · show (match ((run [squareObstacle] ⟨1, 1⟩ 2 (initState ⟨1, 1⟩)).1).complete with
          | some c => c.path
          | none => []) = [⟨1, 1⟩]
    rw [h2, hcomp2]

/-- A popped fringe's remainder only contains nodes of the original fringe. -/
theorem popMinF_rest_sub (g : Vec2) (l : List Node) (n : Node) (rest : List Node)
    (h : popMinF g l = some (n, rest)) : ∀ m ∈ rest, m ∈ l := by
  cases l with
  | nil => exact absurd h (by simp [popMinF])
  | cons x xs =>
    intro m hm
    have hrest : rest = (x :: xs).erase (selectMin g x xs) := by
      unfold popMinF at h
      exact (Prod.mk.injEq _ _ _ _ ▸ Option.some_injective _ h).2.symm
    rw [hrest] at hm
    exact List.mem_of_mem_erase hm

/-- The invariant of a query whose goal is occluded from every reachable
position: every fringe position is the start or a polygon vertex, and no
path has been completed. -/
def BlockedInv (w : List Polygon) (start : Vec2) (s : SState) : Prop :=
  (∀ m ∈ s.fringe, m.position ∈ start :: worldVertices w) ∧ s.complete = none

/-- One loop iteration preserves the blocked-goal invariant. -/
theorem blocked_inv_step (w : List Polygon) (start g : Vec2)
    (hstart : start ≠ g) (hv : ∀ v ∈ worldVertices w, v ≠ g)
    (hne : ∀ p ∈ w, p.vertices ≠ [])
    (hblock : ∀ q ∈ start :: worldVertices w, intersectWorld w ⟨q, g⟩ = true)
    (s : SState) (hinv : BlockedInv w start s) :
    (∀ s1, runStep w g s = .done s1 → BlockedInv w start s1) ∧
    (∀ s1, runStep w g s = .cont s1 → BlockedInv w start s1) := by
  obtain ⟨hfr, hcdone⟩ := hinv
  constructor
  · intro s1 h
    unfold runStep at h
    cases hpop : popMinF g s.fringe with
    | none =>
      rw [hpop] at h
      cases h
      exact ⟨hfr, hcdone⟩
    | some nr =>
      rw [hpop] at h
      obtain ⟨n, rest⟩ := nr
      rw [hcdone] at h
      cases h
  · intro s1 h
    unfold runStep at h
    cases hpop : popMinF g s.fringe with
    | none =>
      rw [hpop] at h
      cases h
    | some nr =>
      rw [hpop] at h
      obtain ⟨n, rest⟩ := nr
      rw [hcdone] at h
      dsimp only at h
      cases h
      have hnmem : n ∈ s.fringe := popMinF_mem g s.fringe n rest hpop
      have hnpos : n.position ∈ start :: worldVertices w := hfr n hnmem
      have hnposne : n.position ≠ g := by
        rcases List.mem_cons.mp hnpos with heq | hmem
        · rw [heq]; exact hstart
        · exact hv _ hmem
      constructor
      · intro m hm
        rcases process_fringe_mem w g n ⟨rest, s.discovered, none⟩ hne m hm with
          hm2 | ⟨pt, hpt, hpath⟩
        · exact hfr m (popMinF_rest_sub g s.fringe n rest hpop m hm2)
        · have hmpos : m.position = pt := by
            cases m with
            | mk mp =>
              show mp.getLastD ⟨0, 0⟩ = pt
              have : mp = n.path ++ [pt] := hpath
              rw [this, List.getLastD_concat]
          rcases hpt with ⟨rfl, hvisf⟩ | hmem
          · have := hblock n.position hnpos
            rw [this] at hvisf
            cases hvisf
          · rw [hmpos]
            exact List.mem_cons_of_mem _ hmem
      · rw [process_complete, if_neg hnposne]

/-- The blocked-goal invariant holds for the whole loop. -/
theorem blocked_inv_run (w : List Polygon) (start g : Vec2)
    (hstart : start ≠ g) (hv : ∀ v ∈ worldVertices w, v ≠ g)
    (hne : ∀ p ∈ w, p.vertices ≠ [])
    (hblock : ∀ q ∈ start :: worldVertices w, intersectWorld w ⟨q, g⟩ = true) :
    ∀ (fuel : ℕ) (s : SState), BlockedInv w start s →
      BlockedInv w start ((run w g fuel s).1) := by
  intro fuel
  induction fuel with
  | zero => intro s h; exact h
  | succ k ih =>
    intro s h
    have hstep := blocked_inv_step w start g hstart hv hne hblock s h
    cases hs : runStep w g s with
    | done s1 =>
      simp only [run, hs]
      exact hstep.1 s1 hs
    | cont s1 =>
      simp only [run, hs]
      exact ih s1 (hstep.2 s1 hs)

/-- C8 amended: a goal that the occlusion test blocks from the start and
from every polygon vertex (which is not itself a polygon vertex, with
start ≠ goal) is unreachable for the solver: no node at the goal is ever
completed, and FindPath returns the empty sequence for every fuel — the
unreachable goal is an ordinary empty-path return, not an error.  (The
original claim's hypothesis "goal strictly inside some polygon" is not
sufficient: with start = goal strictly inside, the seed itself completes at
the goal and a non-empty path is returned.) -/
theorem blocked_goal_empty_path (w : List Polygon) (start g : Vec2) (fuel : ℕ)
    (hstart : start ≠ g) (hv : ∀ v ∈ worldVertices w, v ≠ g)
    (hne : ∀ p ∈ w, p.vertices ≠ [])
    (hblock : ∀ q ∈ start :: worldVertices w, intersectWorld w ⟨q, g⟩ = true) :
    ((run w g fuel (initState start)).1).complete = none ∧
    findPath w start g fuel = [] := by
  have hinit : BlockedInv w start (initState start) := by
    constructor
    · intro m hm
      have hm1 : m = ⟨[start]⟩ := by simpa [initState] using hm
      rw [hm1]
      exact List.mem_cons_self _ _
    · rfl
  have hfin := blocked_inv_run w start g hstart hv hne hblock fuel (initState start) hinit
  refine ⟨hfin.2, ?_⟩
  unfold findPath
  rw [hfin.2]

/-- Witness for the amended C8 theorem: the square obstacle, start outside
at (-1,-1), goal at the centre (1,1); the goal is blocked from the start and
from all four vertices, and FindPath is empty. -/
theorem blocked_goal_empty_path_witness :
    ((⟨-1, -1⟩ : Vec2) ≠ (⟨1, 1⟩ : Vec2)) ∧
    (∀ q ∈ (⟨-1, -1⟩ : Vec2) :: worldVertices [squareObstacle],
      intersectWorld [squareObstacle] ⟨q, ⟨1, 1⟩⟩ = true) ∧
    findPath [squareObstacle] ⟨-1, -1⟩ ⟨1, 1⟩ 9 = [] := by
  refine ⟨by decide, by with_unfolding_all decide, ?_⟩
  exact (blocked_goal_empty_path [squareObstacle] ⟨-1, -1⟩ ⟨1, 1⟩ 9
    (by decide) (by decide) (by decide) (by with_unfolding_all decide)).2

/-- pathLength is a sum of magnitudes, hence nonnegative. -/
theorem pathLength_nonneg (n : Node) : 0 ≤ n.pathLength := by
  unfold Node.pathLength
  apply List.sum_nonneg
  intro x hx
  rcases List.mem_map.mp hx with ⟨v, _, rfl⟩
  exact Vec2.magnitude_nonneg v

/-- A node whose path consists solely of copies of the origin. -/
def ZeroNode (m : Node) : Prop :=
  m.path ≠ [] ∧ ∀ x ∈ m.path, x = ⟨0, 0⟩

theorem ZeroNode_position (m : Node) (h : ZeroNode m) : m.position = ⟨0, 0⟩ :=
  h.2 _ (getLastD_mem m.path h.1 _)

theorem zero_sub_zero : (⟨0, 0⟩ : Vec2) - ⟨0, 0⟩ = ⟨0, 0⟩ := by
  show Vec2.sub ⟨0, 0⟩ ⟨0, 0⟩ = ⟨0, 0⟩
  unfold Vec2.sub
  norm_num

/-- An all-origin path has pathLength zero. -/
theorem zero_pathLength : ∀ (p : List Vec2), (∀ x ∈ p, x = ⟨0, 0⟩) →
    Node.pathLength ⟨p⟩ = 0 := by
  intro p
  induction p using List.reverseRecOn with
  | nil =>
    intro _
    show ((Node.adjDiff []).map Vec2.magnitude).sum = 0
    rfl
  | append_singleton q x ih =>
    intro hall
    have hx : x = ⟨0, 0⟩ := hall x (by simp)
    by_cases hqne : q = []
    · subst hqne
      show ((Node.adjDiff [x]).map Vec2.magnitude).sum = 0
      rw [hx]
      show Vec2.magnitude ⟨0, 0⟩ + 0 = 0
      rw [Vec2.magnitude_zero]
      norm_num
    · rw [pathLength_concat q hqne x]
      have hlast : q.getLastD ⟨0, 0⟩ = ⟨0, 0⟩ :=
        hall _ (List.mem_append_left _ (getLastD_mem q hqne _))
      rw [ih (fun y hy => hall y (List.mem_append_left _ hy)), hx, hlast, zero_sub_zero,
        Vec2.magnitude_zero]
      norm_num

theorem ZeroNode_pathLength (m : Node) (h : ZeroNode m) : m.pathLength = 0 :=
  zero_pathLength m.path h.2

/-- A nonempty fringe always pops. -/
theorem popMinF_of_ne_nil (g : Vec2) (l : List Node) (hl : l ≠ []) :
    popMinF g l = some (selectMin g (l.headD ⟨[]⟩) (l.tail),
      l.erase (selectMin g (l.headD ⟨[]⟩) (l.tail))) := by
  cases l with
  | nil => exact absurd rfl hl
  | cons x xs => rfl

/-- Discover only appends to the fringe. -/
theorem discover_fringe_mono (s : SState) (c : Node) :
    ∀ m ∈ s.fringe, m ∈ (discover s c).fringe := by
  intro m hm
  unfold discover
  cases hfind : List.find? (fun q => q.position == c.position) s.discovered with
  | none => exact List.mem_append_left _ hm
  | some q =>
    dsimp only
    split
    · exact hm
    · exact List.mem_append_left _ hm

/-- A zero-length candidate is always pushed: the stored entry's pathLength
is nonnegative, so the strict drop test never fires. -/
theorem discover_pushes_of_zero (s : SState) (c : Node) (hc : c.pathLength = 0) :
    (discover s c).fringe = s.fringe ++ [c] := by
  unfold discover
  cases hfind : List.find? (fun q => q.position == c.position) s.discovered with
  | none => rfl
  | some q =>
    dsimp only
    rw [if_neg]
    rw [hc]
    exact not_lt.mpr (pathLength_nonneg q)

/-- Expanding one polygon only appends to the fringe. -/
theorem expandPolygon_fringe_mono (w : List Polygon) (n : Node) (st : SState) (p : Polygon) :
    ∀ m ∈ st.fringe, m ∈ (expandPolygon w n st p).fringe := by
  intro m hm
  unfold expandPolygon
  cases hidx : p.vertices.findIdx? (fun v => n.position == v) with
  | some i =>
    dsimp only
    exact discover_fringe_mono _ _ m (discover_fringe_mono _ _ m hm)
  | none =>
    dsimp only
    split
    · split
      · exact discover_fringe_mono _ _ m (discover_fringe_mono _ _ m hm)
      · exact discover_fringe_mono _ _ m hm
    · split
      · exact discover_fringe_mono _ _ m hm
      · exact hm

/-- Folding the per-polygon expansion only appends to the fringe. -/
theorem foldl_expandPolygon_fringe_mono (w : List Polygon) (n : Node) :
    ∀ (ps : List Polygon) (st : SState), ∀ m ∈ st.fringe,
      m ∈ (ps.foldl (expandPolygon w n) st).fringe := by
  intro ps
  induction ps with
  | nil => intro st m hm; exact hm
  | cons p t ih =>
    intro st m hm
    rw [List.foldl_cons]
    exact ih _ m (expandPolygon_fringe_mono w n st p m hm)

/-- Processing a popped node only appends to the fringe. -/
theorem process_fringe_mono (w : List Polygon) (g : Vec2) (n : Node) (s : SState) :
    ∀ m ∈ s.fringe, m ∈ (process w g n s).fringe := by
  intro m hm
  unfold process
  apply foldl_expandPolygon_fringe_mono
  split
  · apply discover_fringe_mono
    split
    · exact hm
    · exact hm
  · split
    · exact hm
    · exact hm

/-- A degenerate polygon: three identical vertices at the origin.  The type
of worlds does not exclude it (the spec's data model declares such input
undefined behaviour, but the code accepts it). -/
def degPoly : Polygon := ⟨[⟨0, 0⟩, ⟨0, 0⟩, ⟨0, 0⟩]⟩

/-- A square obstacle surrounding the point (10,10). -/
def farSquare : Polygon := ⟨[⟨9, 9⟩, ⟨11, 9⟩, ⟨11, 11⟩, ⟨9, 11⟩]⟩

/-- The world of the non-terminating query. -/
def degWorld : List Polygon := [degPoly, farSquare]

/-- The goal of the non-terminating query, strictly inside farSquare. -/
def degGoal : Vec2 := ⟨10, 10⟩

theorem ZeroNode_append (n : Node) (hn : ZeroNode n) : ZeroNode ⟨n.path ++ [⟨0, 0⟩]⟩ := by
  refine ⟨by simp, ?_⟩
  intro x hx
  rcases List.mem_append.mp hx with hx1 | hx2
  · exact hn.2 x hx1
  · simpa using hx2

/-- Expanding the degenerate polygon from a node parked at the origin
discovers the origin again: the node is found at vertex index 0, its ring
neighbours are both the origin, and the zero-length candidate is always
pushed. -/
theorem degen_zero_expandPolygon (n : Node) (st : SState) (hn : ZeroNode n) :
    (⟨n.path ++ [⟨0, 0⟩]⟩ : Node) ∈ (expandPolygon degWorld n st degPoly).fringe := by
  have hpos := ZeroNode_position n hn
  have hidx : degPoly.vertices.findIdx? (fun v => n.position == v) = some 0 := by
    have hpred : (fun (v : Vec2) => n.position == v) = (fun (v : Vec2) => (⟨0, 0⟩ : Vec2) == v) := by
      funext v
      rw [hpos]
    rw [hpred]
    rfl
  unfold expandPolygon
  rw [hidx]
  show (⟨n.path ++ [⟨0, 0⟩]⟩ : Node) ∈
    (discover (discover st ⟨n.path ++ [⟨0, 0⟩]⟩) ⟨n.path ++ [⟨0, 0⟩]⟩).fringe
  apply discover_fringe_mono
  rw [discover_pushes_of_zero st _ (ZeroNode_pathLength _ (ZeroNode_append n hn))]
  exact List.mem_append_right _ (by simp)

/-- Processing a zero node over the degenerate world pushes a zero successor
onto the fringe. -/
theorem degen_zero_process (n : Node) (s : SState) (hn : ZeroNode n) :
    (⟨n.path ++ [⟨0, 0⟩]⟩ : Node) ∈ (process degWorld degGoal n s).fringe := by
  unfold process
  exact foldl_expandPolygon_fringe_mono degWorld n [farSquare] _ _
    (degen_zero_expandPolygon n _ hn)

/-- The remainder of a pop is the fringe with the popped node erased. -/
theorem popMinF_rest_eq (g : Vec2) (l : List Node) (n : Node) (rest : List Node)
    (h : popMinF g l = some (n, rest)) : rest = l.erase n := by
  cases l with
  | nil => exact absurd h (by simp [popMinF])
  | cons x xs =>
    unfold popMinF at h
    have h1 := Prod.mk.injEq _ _ _ _ ▸ Option.some_injective _ h
    rw [h1.2.symm, h1.1]

/-- One loop iteration of the degenerate query: it always continues, keeps
the blocked-goal invariant, and keeps a zero node on the fringe. -/
theorem degen_step (s : SState)
    (hinv : BlockedInv degWorld ⟨0, 0⟩ s) (hzero : ∃ m ∈ s.fringe, ZeroNode m) :
    ∃ s1, runStep degWorld degGoal s = .cont s1 ∧
      BlockedInv degWorld ⟨0, 0⟩ s1 ∧ ∃ m ∈ s1.fringe, ZeroNode m := by
  obtain ⟨m0, hm0mem, hm0z⟩ := hzero
  obtain ⟨n, rest, hpop⟩ : ∃ n rest, popMinF degGoal s.fringe = some (n, rest) := by
    cases hl : s.fringe with
    | nil =>
      rw [hl] at hm0mem
      exact absurd hm0mem (List.not_mem_nil m0)
    | cons x xs => exact ⟨_, _, rfl⟩
  have hstep : runStep degWorld degGoal s =
      .cont (process degWorld degGoal n ⟨rest, s.discovered, none⟩) := by
    unfold runStep
    rw [hpop, hinv.2]
  have hblockstep := (blocked_inv_step degWorld ⟨0, 0⟩ degGoal (by decide)
      (by decide) (by decide) (by with_unfolding_all decide) s hinv).2 _ hstep
  refine ⟨_, hstep, hblockstep, ?_⟩
  by_cases hz : ZeroNode n
  · exact ⟨⟨n.path ++ [⟨0, 0⟩]⟩, degen_zero_process n _ hz, ZeroNode_append n hz⟩
  · have hm0n : m0 ≠ n := fun h => hz (h ▸ hm0z)
    have hm0rest : m0 ∈ rest := by
      rw [popMinF_rest_eq degGoal s.fringe n rest hpop]
      exact (List.mem_erase_of_ne hm0n).mpr hm0mem
    exact ⟨m0, process_fringe_mono _ _ _ _ m0 hm0rest, hm0z⟩

/-- The degenerate query never reaches the loop's exit condition. -/
theorem degen_run_not_finished :
    ∀ (fuel : ℕ) (s : SState), BlockedInv degWorld ⟨0, 0⟩ s →
      (∃ m ∈ s.fringe, ZeroNode m) → (run degWorld degGoal fuel s).2 = false := by
  intro fuel
  induction fuel with
  | zero => intro s _ _; rfl
  | succ k ih =>
    intro s hinv hz
    obtain ⟨s1, hstep, hinv1, hz1⟩ := degen_step s hinv hz
    simp only [run, hstep]
    exact ih s1 hinv1 hz1

/-- C9 counterexample: for the world [degPoly, farSquare] with start (0,0)
and goal (10,10), the query never terminates: the degenerate polygon's ring
neighbours of the origin are the origin itself, so every pop of the
zero-length origin node re-discovers an equal-length origin node (the strict
drop test does not fire on equality), the goal is occluded from every
reachable position so no path ever completes, and the loop never reaches
frontier exhaustion or the early-termination bound for any fuel. -/
theorem degenerate_world_query_never_returns :
    ¬ ∃ fuel, (run degWorld degGoal fuel (initState ⟨0, 0⟩)).2 = true := by
  rintro ⟨fuel, hfin⟩
  have hinv : BlockedInv degWorld ⟨0, 0⟩ (initState ⟨0, 0⟩) := by
    constructor
    · intro m hm
      have hm1 : m = ⟨[⟨0, 0⟩]⟩ := by simpa [initState] using hm
      rw [hm1]
      exact List.mem_cons_self _ _
    · rfl
  have hz : ∃ m ∈ (initState ⟨0, 0⟩).fringe, ZeroNode m := by
    refine ⟨⟨[⟨0, 0⟩]⟩, by simp [initState], by simp, ?_⟩
    intro x hx
    simpa using hx
  rw [degen_run_not_finished fuel _ hinv hz] at hfin
  cases hfin

/-- When a loop iteration ends the pass, either the fringe was empty, or the
early-termination bound fired against an existing completed path. -/
theorem runStep_done_characterize (w : List Polygon) (g : Vec2) (s s1 : SState)
    (h : runStep w g s = .done s1) :
    (popMinF g s.fringe = none ∧ s1 = s) ∨
    (∃ n rest c, popMinF g s.fringe = some (n, rest) ∧ s.complete = some c ∧
      c.pathLength ≤ n.pathLength ∧ s1 = { s with fringe := rest }) := by
  unfold runStep at h
  cases hpop : popMinF g s.fringe with
  | none =>
    rw [hpop] at h
    cases h
    exact Or.inl ⟨rfl, rfl⟩
  | some nr =>
    rw [hpop] at h
    obtain ⟨n, rest⟩ := nr
    cases hc : s.complete with
    | none =>
      rw [hc] at h
      cases h
    | some c =>
      rw [hc] at h
      dsimp only at h
      by_cases hge : n.pathLength ≥ c.pathLength
      · rw [if_pos hge] at h
        cases h
        exact Or.inr ⟨n, rest, c, rfl, rfl, hge, rfl⟩
      · rw [if_neg hge] at h
        cases h

/-- C9 amended: when the expansion loop does return, it returns either by
frontier exhaustion (nothing left to pop) or through the early-termination
bound, in which case a completed node at the goal exists.  (Termination
itself is NOT guaranteed for every world: a degenerate polygon with repeated
vertices makes the loop re-push an equal-length origin candidate forever.) -/
theorem run_returns_only_by_exhaustion_or_bound (w : List Polygon) (g : Vec2) :
    ∀ (fuel : ℕ) (s sfin : SState), CompleteInv g s → run w g fuel s = (sfin, true) →
      popMinF g sfin.fringe = none ∨ ∃ c, sfin.complete = some c ∧ c.position = g := by
  intro fuel
  induction fuel with
  | zero =>
    intro s sfin _ hfin
    rw [show run w g 0 s = (s, false) from rfl] at hfin
    cases (by simpa using congrArg Prod.snd hfin : False)
  | succ k ih =>
    intro s sfin hinv hfin
    cases hstep : runStep w g s with
    | done s1 =>
      simp only [run, hstep] at hfin
      have hs1 : s1 = sfin := by
        have := congrArg Prod.fst hfin
        simpa using this
      subst hs1
      rcases runStep_done_characterize w g s s1 hstep with ⟨hpop, rfl⟩ | ⟨n, rest, c, hpop, hc, _, rfl⟩
      · exact Or.inl hpop
      · exact Or.inr ⟨c, hc, hinv c hc⟩
    | cont s1 =>
      simp only [run, hstep] at hfin
      have hinv1 : CompleteInv g s1 := by
        rcases runStep_cont_complete w g s s1 hstep with heq | ⟨n, hn, hpos, _⟩
        · intro c hc
          exact hinv c (heq ▸ hc)
        · intro c hc
          rw [hn] at hc
          cases hc
          exact hpos
      exact ih s1 sfin hinv1 hfin

/-- Witness for the amended C9 theorem: a run from an empty fringe returns
at once by frontier exhaustion. -/
theorem run_returns_only_by_exhaustion_or_bound_witness :
    CompleteInv ⟨0, 0⟩ ⟨[], [], none⟩ ∧
    (popMinF ⟨0, 0⟩ (SState.fringe ⟨[], [], none⟩) = none ∨
      ∃ c, (SState.complete ⟨[], [], none⟩) = some c ∧ c.position = (⟨0, 0⟩ : Vec2)) := by
  have hinv : CompleteInv ⟨0, 0⟩ ⟨[], [], none⟩ := by
    intro c hc
    cases hc
  refine ⟨hinv, ?_⟩
  exact run_returns_only_by_exhaustion_or_bound [] ⟨0, 0⟩ 1 ⟨[], [], none⟩ ⟨[], [], none⟩
    hinv rfl

end Planet
